import Mathlib

/-!
# Verification of the Briskit runner-assignment engine

Shallow embedding of the Firestore trigger handlers in `functions/index.js`
(current revision; the repository also contains earlier revisions of the same
handlers, cited where a claim refers to them).  Document stores are modelled as
association lists keyed by numeric ids; Firestore `FieldValue` operations
(`increment`, `delete`, `arrayUnion`) are modelled by their documented
single-document semantics.  JavaScript `Number` coercion of time strings is
modelled with `Option Nat`, `none` playing the role of `NaN`.
-/

namespace Briskit

/-- The order lifecycle statuses appearing in the source
(`received`, `ready`, `picked`, `delivered`, `completed`, `cancelled`). -/
inductive Status where
  | received | ready | picked | delivered | completed | cancelled
deriving DecidableEq, Repr

/-- An order document, restricted to the fields the assignment engine touches:
`orderStatus`, `deliveryTime` (raw string, parsed at use sites exactly as the
JS code does), `runner` (optional reference, modelled by the runner id) and
`waitingForRunner` (optional Boolean flag; `none` = field absent). -/
structure Order where
  orderStatus : Status
  deliveryTime : String
  runner : Option Nat
  waitingForRunner : Option Bool
deriving DecidableEq, Repr

/-- A runner document: `isActive`, the three counters and the `orders` array of
order references.  Counters are `Int` because `FieldValue.increment` has no
floor: the embedding must be able to represent negative values. -/
structure Runner where
  isActive : Bool
  activeOrders : Int
  completedOrders : Int
  totalCompletedOrders : Int
  orders : List Nat
deriving DecidableEq, Repr

/-- The Firestore state visible to the handlers: the `orders` and `runners`
collections, as association lists of (document id, document). -/
structure Store where
  orders : List (Nat × Order)
  runners : List (Nat × Runner)
deriving DecidableEq, Repr

/-! ## Store primitives -/

def lookupOrder (s : Store) (oid : Nat) : Option Order :=
  (s.orders.find? (fun p => p.1 == oid)).map (·.2)

def lookupRunner (s : Store) (rid : Nat) : Option Runner :=
  (s.runners.find? (fun p => p.1 == rid)).map (·.2)

/-- Model of `doc.ref.update`: apply the field update `f` to the document with the
given id (Firestore ids are unique; the map touches every matching entry). -/
def updateOrderDoc (s : Store) (oid : Nat) (f : Order → Order) : Store :=
  { s with orders := s.orders.map (fun p => if p.1 == oid then (p.1, f p.2) else p) }

def updateRunnerDoc (s : Store) (rid : Nat) (f : Runner → Runner) : Store :=
  { s with runners := s.runners.map (fun p => if p.1 == rid then (p.1, f p.2) else p) }

/-- Model of `FieldValue.arrayUnion(x)`: append `x` unless already present. -/
def arrayUnion (l : List Nat) (x : Nat) : List Nat :=
  if x ∈ l then l else l ++ [x]

/-! ## Time parsing, with JavaScript `Number` / `NaN` semantics

`deliveryTime.split(':').map(Number)` destructured as `[hours, minutes]`:
a missing component is `undefined` and `Number(undefined)` is `NaN`;
`Number('')` is `0`; a non-numeric component is `NaN`.  `NaN` is modelled as
`none`, and every arithmetic comparison involving `NaN` is `false`. -/

/-- Model of `str.split(':')` on the character list: split into groups at every `':'`;
the empty string yields one empty group, like the JS method. -/
def splitColon : List Char → List (List Char)
  | [] => [[]]
  | c :: rest =>
    let r := splitColon rest
    if c = ':' then [] :: r
    else
      match r with
      | [] => [[c]]
      | g :: gs => (c :: g) :: gs

/-- JavaScript `Number` on a string component: `''` coerces to `0`, a decimal
digit string to its value, anything else to `NaN` (`none`). -/
def jsNumber (cs : List Char) : Option Nat :=
  cs.foldl
    (fun acc c => acc.bind (fun n => if c.isDigit then some (n * 10 + (c.toNat - 48)) else none))
    (some 0)

/-- JavaScript `Number` applied to a possibly-`undefined` destructured component
(`Number(undefined)` is `NaN`). -/
def jsNumberOfPart : Option (List Char) → Option Nat
  | none => none
  | some s => jsNumber s

/-- Model of `const [h, m] = t.split(':').map(Number); h * 60 + m`: minutes since
midnight, `none` when the result is `NaN`. -/
def parseClock (t : String) : Option Nat := do
  let parts := splitColon t.data
  let h ← jsNumberOfPart parts[0]?
  let m ← jsNumberOfPart parts[1]?
  pure (h * 60 + m)

/-- Model of `Math.abs(a - b) < 60` with `NaN` propagation: any `NaN` operand makes the
comparison `false`. -/
def absDiffLt60 : Option Nat → Option Nat → Bool
  | some a, some b => ((a : Int) - b).natAbs < 60
  | _, _ => false

/-! ## Conflict Checker (`runnerHasConflictingDelivery`) -/

/-- The statuses queried by `where('orderStatus', 'in', ['received', 'ready', 'picked'])`. -/
def activeStatuses : List Status := [.received, .ready, .picked]

/-- Model of `runnerHasConflictingDelivery(runnerId, newDeliveryTime)`: among orders
referencing this runner with a not-yet-delivered status, is some delivery time
strictly within 60 minutes of the candidate? -/
def runnerHasConflictingDelivery (s : Store) (runnerId : Nat) (newDeliveryTime : String) : Bool :=
  let newParsed := parseClock newDeliveryTime
  let assigned := s.orders.filter
    (fun p => p.2.runner == some runnerId && activeStatuses.contains p.2.orderStatus)
  assigned.any (fun p => absDiffLt60 newParsed (parseClock p.2.deliveryTime))

/-! ## Runner Selector (`findSuitableRunner`)

The sort comparator returns `activeOrders` difference, then `completedOrders`
difference, then `Math.random() - 0.5`.  The random draw is modelled by an
explicit tie-break function `tie : Nat → Nat → Bool` (by runner id), quantified
universally in the theorems: every possible outcome of the random draws is a
possible value of `tie`, so the proved properties hold for each outcome. -/

/-- The comparator of `filteredRunners.sort(...)`, as the Boolean relation
"`a` sorts no later than `b`" (comparator value ≤ 0). -/
def fairLe (tie : Nat → Nat → Bool) (a b : Nat × Runner) : Bool :=
  if a.2.activeOrders ≠ b.2.activeOrders then decide (a.2.activeOrders < b.2.activeOrders)
  else if a.2.completedOrders ≠ b.2.completedOrders then decide (a.2.completedOrders < b.2.completedOrders)
  else tie a.1 b.1

/-- Insert into a sorted list under a Boolean "no later than" relation. -/
def insertLe (le : α → α → Bool) (x : α) : List α → List α
  | [] => [x]
  | y :: ys => if le x y then x :: y :: ys else y :: insertLe le x ys

/-- Sorting under a Boolean "no later than" relation, modelling
`Array.prototype.sort` with the given comparator. -/
def sortLe (le : α → α → Bool) : List α → List α
  | [] => []
  | x :: xs => insertLe le x (sortLe le xs)

/-- Model of `findSuitableRunner(orderDeliveryTime)`: query active runners; discard
those with a conflicting delivery; sort by the fairness comparator and return
the first, or `null` when nothing remains. -/
def findSuitableRunner (tie : Nat → Nat → Bool) (s : Store)
    (orderDeliveryTime : String) : Option (Nat × Runner) :=
  let runnersSnapshot := s.runners.filter (fun p => p.2.isActive)
  if runnersSnapshot.isEmpty then none
  else
    let filteredRunners := runnersSnapshot.filter
      (fun p => !runnerHasConflictingDelivery s p.1 orderDeliveryTime)
    if filteredRunners.isEmpty then none
    else (sortLe (fairLe tie) filteredRunners).head?

/-! ## Trigger handlers and the event cascade

A Firestore update of an order document fires the `onUpdate` triggers on that
document with the (before, after) snapshots.  An order-update event is
`(oid, before, after)`.  The two in-scope order `onUpdate` handlers that touch
engine state are `onRunnerAssignedToOrder` and `updateRunnerOnOrderDelivered`;
their own order writes spawn further events, processed below with a fuel bound
(each event spawns at most one, whose guards are all false, so any fuel ≥ 2 per
initial event is exact).  Runner-document writes made by these handlers never
flip `isActive` to `true`, so they never fire the runner-activation trigger. -/

/-- An order change event: document id, before snapshot, after snapshot. -/
abbrev OrderEvent := Nat × Order × Order

/-- Model of `onRunnerAssignedToOrder`: when the `runner` field goes from absent to
present, increment the runner's `activeOrders`, array-union the order ref into
the runner's `orders`, then delete `waitingForRunner` on the (live) order
document.  Returns the updated store and the spawned order-update event. -/
def onRunnerAssignedToOrderStep (s : Store) (ev : OrderEvent) : Store × List OrderEvent :=
  let (oid, before, after) := ev
  match before.runner, after.runner with
  | none, some rid =>
    let s1 := updateRunnerDoc s rid (fun r =>
      { r with activeOrders := r.activeOrders + 1, orders := arrayUnion r.orders oid })
    match lookupOrder s1 oid with
    | some live =>
      (updateOrderDoc s1 oid (fun o => { o with waitingForRunner := none }),
       [(oid, live, { live with waitingForRunner := none })])
    | none => (s1, [])
  | _, _ => (s, [])

/-- Model of `updateRunnerOnOrderDelivered` (current revision, no floor): when
`orderStatus` transitions to `delivered` with a runner present, decrement the
runner's `activeOrders` and increment `completedOrders` and
`totalCompletedOrders`; a missing runner document is a no-op. -/
def updateRunnerOnOrderDeliveredStep (s : Store) (ev : OrderEvent) : Store :=
  let (_, before, after) := ev
  if before.orderStatus ≠ Status.delivered ∧ after.orderStatus = Status.delivered then
    match after.runner with
    | some rid =>
      match lookupRunner s rid with
      | some _ =>
        updateRunnerDoc s rid (fun r =>
          { r with
            activeOrders := r.activeOrders - 1
            completedOrders := r.completedOrders + 1
            totalCompletedOrders := r.totalCompletedOrders + 1 })
      | none => s
    | none => s
  else s

/-- Deliver a queue of order-update events to the two in-scope `onUpdate`
handlers, enqueueing the events their writes spawn, bounded by fuel. -/
def processEvents : Nat → Store → List OrderEvent → Store
  | 0, s, _ => s
  | _ + 1, s, [] => s
  | fuel + 1, s, ev :: rest =>
    let (s1, spawned) := onRunnerAssignedToOrderStep s ev
    let s2 := updateRunnerOnOrderDeliveredStep s1 ev
    processEvents fuel s2 (rest ++ spawned)

/-- Model of `assignRunnerOnOrderCreated`: on order creation, if the order has no
runner, select one; on success write `runner` / delete `waitingForRunner` on
the order and increment the runner's `activeOrders` (plus array-union the order
ref); on failure set `waitingForRunner = true` (the admin SMS is external).
The order writes fire the `onUpdate` triggers, processed as a cascade. -/
def assignRunnerOnOrderCreated (tie : Nat → Nat → Bool) (s : Store) (oid : Nat) : Store :=
  match lookupOrder s oid with
  | none => s
  | some order =>
    if order.runner = none then
      match findSuitableRunner tie s order.deliveryTime with
      | some (rid, _) =>
        let after := { order with runner := some rid, waitingForRunner := none }
        let s1 := updateOrderDoc s oid (fun o => { o with runner := some rid, waitingForRunner := none })
        let s2 := updateRunnerDoc s1 rid (fun r =>
          { r with activeOrders := r.activeOrders + 1, orders := arrayUnion r.orders oid })
        processEvents 8 s2 [(oid, order, after)]
      | none =>
        let s1 := updateOrderDoc s oid (fun o => { o with waitingForRunner := some true })
        processEvents 8 s1 [(oid, order, { order with waitingForRunner := some true })]
    else s

/-- Model of `assignOrdersWhenRunnerActivates` (runner-activation bulk path, cited by
the assignment-exclusivity claim): when `isActive` flips to `true`, batch-assign
up to 5 orders marked `waitingForRunner` to this runner, clearing the flag;
then add the count to `activeOrders` and set `isActive := count == 5 ? false :
true`.  The batched order writes fire the order `onUpdate` triggers. -/
def assignOrdersWhenRunnerActivates (s : Store) (rid : Nat) (before after : Runner) : Store :=
  if before.isActive ≠ after.isActive ∧ after.isActive = true then
    let waiting := s.orders.filter (fun p => p.2.waitingForRunner == some true)
    if waiting.isEmpty then s
    else
      let targets := waiting.take 5
      let count : Int := targets.length
      let s1 := targets.foldl
        (fun acc p => updateOrderDoc acc p.1
          (fun o => { o with runner := some rid, waitingForRunner := none })) s
      let events := targets.map
        (fun p => (p.1, p.2, { p.2 with runner := some rid, waitingForRunner := none }))
      let s2 := updateRunnerDoc s1 rid (fun r =>
        { r with
          activeOrders := r.activeOrders + count
          isActive := if targets.length = 5 then false else true })
      processEvents 16 s2 events
  else s

/-- Model of `resetDailyCompletedOrders`: batch-write `completedOrders := 0` on every
runner document. -/
def resetDailyCompletedOrders (s : Store) : Store :=
  { s with runners := s.runners.map (fun p => (p.1, { p.2 with completedOrders := 0 })) }

/-- Model of `resetMonthlyCompletedOrders`: batch-write `totalCompletedOrders := 0` on
every runner document. -/
def resetMonthlyCompletedOrders (s : Store) : Store :=
  { s with runners := s.runners.map (fun p => (p.1, { p.2 with totalCompletedOrders := 0 })) }

/-! ## In-scope operations on the store

External stimuli and the handlers they fire, for reachability statements.
`tie` (the selector's random draw) is a parameter of the interpretation. -/

/-- The in-scope operations: registering a runner (fresh id, zero counters),
creating an order (fresh id; client code never sets `waitingForRunner`), an
external `orderStatus` write, an external `isActive` write, and the two
scheduled resets.  Each operation includes the triggers it fires. -/
inductive Op where
  | newRunner (rid : Nat) (isActive : Bool)
  | createOrder (oid : Nat) (time : String) (status : Status) (preRunner : Option Nat)
  | setStatus (oid : Nat) (st : Status)
  | setActive (rid : Nat) (b : Bool)
  | resetDaily
  | resetMonthly
deriving DecidableEq, Repr

/-- One operation: the external write followed by the triggered handlers. -/
def applyOp (tie : Nat → Nat → Bool) (op : Op) (s : Store) : Store :=
  match op with
  | .newRunner rid isActive =>
    match lookupRunner s rid with
    | some _ => s
    | none => { s with runners := s.runners ++ [(rid, ⟨isActive, 0, 0, 0, []⟩)] }
  | .createOrder oid time status preRunner =>
    match lookupOrder s oid with
    | some _ => s
    | none =>
      let s1 := { s with orders := s.orders ++ [(oid, ⟨status, time, preRunner, none⟩)] }
      assignRunnerOnOrderCreated tie s1 oid
  | .setStatus oid st =>
    match lookupOrder s oid with
    | none => s
    | some o =>
      let s1 := updateOrderDoc s oid (fun x => { x with orderStatus := st })
      processEvents 8 s1 [(oid, o, { o with orderStatus := st })]
  | .setActive rid b =>
    match lookupRunner s rid with
    | none => s
    | some r =>
      let s1 := updateRunnerDoc s rid (fun x => { x with isActive := b })
      assignOrdersWhenRunnerActivates s1 rid r { r with isActive := b }
  | .resetDaily => resetDailyCompletedOrders s
  | .resetMonthly => resetMonthlyCompletedOrders s

/-- Run a sequence of operations. -/
def runOps (tie : Nat → Nat → Bool) (ops : List Op) (s : Store) : Store :=
  ops.foldl (fun acc op => applyOp tie op acc) s

/-- The empty initial store. -/
def initStore : Store := ⟨[], []⟩

/-! ## Lookup / update lemmas -/

theorem find?_map_key {α : Type} (l : List (Nat × α)) (k k' : Nat) (f : α → α) :
    ((l.map (fun p => if p.1 == k then (p.1, f p.2) else p)).find? (fun p => p.1 == k')).map (·.2) =
      if k' = k then ((l.find? (fun p => p.1 == k')).map (·.2)).map f
      else (l.find? (fun p => p.1 == k')).map (·.2) := by
  induction l with
  | nil => simp
  | cons p rest ih =>
    obtain ⟨pk, pv⟩ := p
    by_cases hpk : pk = k
    · subst hpk
      simp only [List.map_cons, beq_self_eq_true, if_true]
      by_cases hk' : k' = pk
      · subst hk'
        rw [List.find?_cons_of_pos _ (by simp), List.find?_cons_of_pos _ (by simp)]
        simp
      · rw [List.find?_cons_of_neg _ (by simp; omega),
            List.find?_cons_of_neg _ (by simp; omega), ih]
    · have hne : (pk == k) = false := by simp [hpk]
      simp only [List.map_cons, hne, Bool.false_eq_true, if_false]
      by_cases hpk' : pk = k'
      · subst hpk'
        rw [List.find?_cons_of_pos _ (by simp), List.find?_cons_of_pos _ (by simp),
            if_neg (by omega)]
      · rw [List.find?_cons_of_neg _ (by simp; omega),
            List.find?_cons_of_neg _ (by simp; omega)]
        exact ih

theorem lookupOrder_updateOrderDoc (s : Store) (oid oid' : Nat) (f : Order → Order) :
    lookupOrder (updateOrderDoc s oid f) oid' =
      if oid' = oid then (lookupOrder s oid').map f else lookupOrder s oid' := by
  simp only [lookupOrder, updateOrderDoc]
  exact find?_map_key s.orders oid oid' f

theorem lookupRunner_updateRunnerDoc (s : Store) (rid rid' : Nat) (f : Runner → Runner) :
    lookupRunner (updateRunnerDoc s rid f) rid' =
      if rid' = rid then (lookupRunner s rid').map f else lookupRunner s rid' := by
  simp only [lookupRunner, updateRunnerDoc]
  exact find?_map_key s.runners rid rid' f

theorem lookupRunner_updateOrderDoc (s : Store) (oid rid : Nat) (f : Order → Order) :
    lookupRunner (updateOrderDoc s oid f) rid = lookupRunner s rid := rfl

theorem lookupOrder_updateRunnerDoc (s : Store) (rid oid : Nat) (f : Runner → Runner) :
    lookupOrder (updateRunnerDoc s rid f) oid = lookupOrder s oid := rfl

theorem orders_updateRunnerDoc (s : Store) (rid : Nat) (f : Runner → Runner) :
    (updateRunnerDoc s rid f).orders = s.orders := rfl

theorem runners_updateOrderDoc (s : Store) (oid : Nat) (f : Order → Order) :
    (updateOrderDoc s oid f).runners = s.runners := rfl

theorem orderKeys_updateOrderDoc (s : Store) (oid : Nat) (f : Order → Order) :
    (updateOrderDoc s oid f).orders.map Prod.fst = s.orders.map Prod.fst := by
  simp only [updateOrderDoc, List.map_map]
  apply List.map_congr_left
  intro p _
  by_cases h : p.1 = oid <;> simp [h]

theorem mem_orders_updateOrderDoc {s : Store} {oid : Nat} {f : Order → Order} {q : Nat × Order}
    (hq : q ∈ (updateOrderDoc s oid f).orders) :
    ∃ p ∈ s.orders, q = if p.1 = oid then (p.1, f p.2) else p := by
  simp only [updateOrderDoc] at hq
  rcases List.mem_map.mp hq with ⟨p, hp, heq⟩
  refine ⟨p, hp, ?_⟩
  by_cases h : p.1 = oid <;> simp_all

theorem mem_runners_updateRunnerDoc {s : Store} {rid : Nat} {f : Runner → Runner} {q : Nat × Runner}
    (hq : q ∈ (updateRunnerDoc s rid f).runners) :
    ∃ p ∈ s.runners, q = if p.1 = rid then (p.1, f p.2) else p := by
  simp only [updateRunnerDoc] at hq
  rcases List.mem_map.mp hq with ⟨p, hp, heq⟩
  refine ⟨p, hp, ?_⟩
  by_cases h : p.1 = rid <;> simp_all

/-! ## The fairness order and the sort -/

/-- The strict lexicographic fairness order on runner documents: lower
`activeOrders`, then lower `completedOrders`. -/
def lexLtR (a b : Runner) : Prop :=
  a.activeOrders < b.activeOrders ∨
    (a.activeOrders = b.activeOrders ∧ a.completedOrders < b.completedOrders)

theorem lexLtR_irrefl (a : Runner) : ¬ lexLtR a a := by
  simp only [lexLtR]; omega

theorem not_lexLtR_trans {y b x : Runner} (h1 : ¬ lexLtR y b) (h2 : ¬ lexLtR b x) :
    ¬ lexLtR y x := by
  simp only [lexLtR] at *; omega

theorem fairLe_of_lexLt {tie : Nat → Nat → Bool} {a b : Nat × Runner} (h : lexLtR a.2 b.2) :
    fairLe tie a b = true := by
  unfold fairLe
  rcases h with h | ⟨h1, h2⟩
  · rw [if_pos (by omega)]
    exact decide_eq_true h
  · rw [if_neg (by omega), if_pos (by omega)]
    exact decide_eq_true h2

theorem not_lexLt_of_fairLe {tie : Nat → Nat → Bool} {a b : Nat × Runner}
    (h : fairLe tie a b = true) : ¬ lexLtR b.2 a.2 := by
  unfold fairLe at h
  split at h
  · have := of_decide_eq_true h
    simp only [lexLtR]; omega
  · split at h
    · have := of_decide_eq_true h
      simp only [lexLtR] at *; omega
    · simp only [lexLtR] at *; omega

theorem not_lexLt_of_fairLe_false {tie : Nat → Nat → Bool} {a b : Nat × Runner}
    (h : fairLe tie a b = false) : ¬ lexLtR a.2 b.2 := by
  intro hlt
  rw [fairLe_of_lexLt hlt] at h
  simp at h

theorem mem_insertLe {le : α → α → Bool} {x y : α} {l : List α} :
    y ∈ insertLe le x l ↔ y = x ∨ y ∈ l := by
  induction l with
  | nil => simp [insertLe]
  | cons z zs ih =>
    unfold insertLe
    split
    · simp
    · simp only [List.mem_cons, ih]
      tauto

theorem mem_sortLe {le : α → α → Bool} {y : α} {l : List α} :
    y ∈ sortLe le l ↔ y ∈ l := by
  induction l with
  | nil => simp [sortLe]
  | cons x xs ih =>
    unfold sortLe
    rw [mem_insertLe, ih]
    simp

theorem insertLe_ne_nil (le : α → α → Bool) (x : α) (l : List α) :
    insertLe le x l ≠ [] := by
  cases l with
  | nil => simp [insertLe]
  | cons z zs =>
    unfold insertLe
    split <;> simp

theorem sortLe_eq_nil_iff {le : α → α → Bool} {l : List α} :
    sortLe le l = [] ↔ l = [] := by
  cases l with
  | nil => simp [sortLe]
  | cons x xs =>
    unfold sortLe
    simp [insertLe_ne_nil]

/-- The first element of the sorted candidate list is minimal for the strict
fairness order, whatever the random tie-break does. -/
theorem sortLe_head_min (tie : Nat → Nat → Bool) :
    ∀ (l : List (Nat × Runner)) (h : Nat × Runner) (t : List (Nat × Runner)),
      sortLe (fairLe tie) l = h :: t → ∀ y ∈ l, ¬ lexLtR y.2 h.2 := by
  intro l
  induction l with
  | nil => intro h t hsort; simp [sortLe] at hsort
  | cons x xs ih =>
    intro h t hsort y hy
    unfold sortLe at hsort
    cases hxs : sortLe (fairLe tie) xs with
    | nil =>
      have hxsnil : xs = [] := sortLe_eq_nil_iff.mp hxs
      rw [hxs] at hsort
      unfold insertLe at hsort
      obtain ⟨rfl, -⟩ := List.cons.inj hsort
      subst hxsnil
      rcases List.mem_singleton.mp hy with rfl
      exact lexLtR_irrefl _
    | cons b t' =>
      rw [hxs] at hsort
      unfold insertLe at hsort
      by_cases hf : fairLe tie x b = true
      · rw [if_pos hf] at hsort
        obtain ⟨rfl, -⟩ := List.cons.inj hsort
        rcases List.mem_cons.mp hy with rfl | hyxs
        · exact lexLtR_irrefl _
        · have h1 : ¬ lexLtR y.2 b.2 := ih b t' hxs y hyxs
          have h2 : ¬ lexLtR b.2 x.2 := not_lexLt_of_fairLe hf
          exact not_lexLtR_trans h1 h2
      · rw [if_neg hf] at hsort
        obtain ⟨rfl, -⟩ := List.cons.inj hsort
        rcases List.mem_cons.mp hy with rfl | hyxs
        · exact not_lexLt_of_fairLe_false (Bool.eq_false_iff.mpr hf)
        · exact ih b t' hxs y hyxs

/-- Unfolding of `absDiffLt60` with a parsed candidate into an existential. -/
theorem absDiffLt60_some_iff (c : Nat) (o : Option Nat) :
    absDiffLt60 (some c) o = true ↔ ∃ t, o = some t ∧ ((c : Int) - t).natAbs < 60 := by
  cases o <;> simp [absDiffLt60]

/-- A fixed tie-break draw, for concrete evaluations. -/
def tie0 : Nat → Nat → Bool := fun _ _ => true

/-- The runner pool of testable property P4: R1(active 2, completed 5),
R2(active 1, completed 9), R3(active 1, completed 3), all active, no orders. -/
def p4Store : Store :=
  { orders := []
    runners := [(1, ⟨true, 2, 5, 0, []⟩), (2, ⟨true, 1, 9, 0, []⟩), (3, ⟨true, 1, 3, 0, []⟩)] }

/-- The store of spec Scenario C: runner 7 with an existing commitment at
"12:00" on a `received` order. -/
def demoStore : Store :=
  { orders := [(1, ⟨.received, "12:00", some 7, none⟩)]
    runners := [(7, ⟨true, 1, 0, 0, [1]⟩)] }

/-- Store with a malformed stored `deliveryTime` ("6pm") on a `received` order
of runner 0. -/
def c8Store : Store :=
  ⟨[(5, ⟨.received, "6pm", some 0, none⟩)], [(0, ⟨true, 1, 0, 0, [5]⟩)]⟩

/-- C2: for a parseable candidate time, the Conflict Checker returns `true`
iff some order referencing the runner with status in
{received, ready, picked} has a parseable `deliveryTime` strictly within 60
minutes (in minutes-since-midnight) of the candidate.  In particular a
commitment exactly 60 minutes away is not a conflict, and orders in
delivered/completed/cancelled status never block a candidate. -/
theorem c2_conflict_checker_iff (s : Store) (rid : Nat) (cand : String) (c : Nat)
    (hc : parseClock cand = some c) :
    runnerHasConflictingDelivery s rid cand = true ↔
      ∃ p ∈ s.orders, p.2.runner = some rid ∧ p.2.orderStatus ∈ activeStatuses ∧
        ∃ t, parseClock p.2.deliveryTime = some t ∧ ((c : Int) - t).natAbs < 60 := by
  unfold runnerHasConflictingDelivery
  rw [hc]
  simp only [List.any_eq_true, List.mem_filter, Bool.and_eq_true, beq_iff_eq,
    absDiffLt60_some_iff, List.elem_iff]
  constructor
  · rintro ⟨p, ⟨hp, hr, hst⟩, t, ht, hlt⟩
    exact ⟨p, hp, hr, hst, t, ht, hlt⟩
  · rintro ⟨p, hp, hr, hst, t, ht, hlt⟩
    exact ⟨p, ⟨hp, hr, hst⟩, t, ht, hlt⟩

/-- Witness for C2 at spec Scenario C: candidate "12:30" against a commitment
at "12:00" (30 minutes apart) is a conflict. -/
theorem c2_conflict_checker_iff_witness :
    parseClock "12:30" = some 750 ∧
      (runnerHasConflictingDelivery demoStore 7 "12:30" = true ↔
        ∃ p ∈ demoStore.orders, p.2.runner = some 7 ∧ p.2.orderStatus ∈ activeStatuses ∧
          ∃ t, parseClock p.2.deliveryTime = some t ∧ ((750 : Int) - t).natAbs < 60) :=
  ⟨by decide, c2_conflict_checker_iff demoStore 7 "12:30" 750 (by decide)⟩

/-- C3: for every outcome of the random tie-break draw (modelled by `tie`),
the Runner Selector returns `none` iff there is no active runner or every
active runner has a time conflict; otherwise it returns a conflict-free active
runner that is minimal in the lexicographic (`activeOrders`, `completedOrders`)
order; and on the P4 pool {R1(2,5), R2(1,9), R3(1,3)} it returns R3. -/
theorem c3_selector_spec :
    (∀ (tie : Nat → Nat → Bool) (s : Store) (time : String),
      (findSuitableRunner tie s time = none ↔
        (∀ p ∈ s.runners, p.2.isActive = false) ∨
          (∀ p ∈ s.runners, p.2.isActive = true →
            runnerHasConflictingDelivery s p.1 time = true)) ∧
      (∀ rid r, findSuitableRunner tie s time = some (rid, r) →
        (rid, r) ∈ s.runners ∧ r.isActive = true ∧
          runnerHasConflictingDelivery s rid time = false ∧
          ∀ p ∈ s.runners, p.2.isActive = true →
            runnerHasConflictingDelivery s p.1 time = false → ¬ lexLtR p.2 r)) ∧
    (∀ tie : Nat → Nat → Bool,
      findSuitableRunner tie p4Store "18:00" = some (3, ⟨true, 1, 3, 0, []⟩)) := by
  constructor
  · intro tie s time
    constructor
    · simp only [findSuitableRunner]
      split_ifs with h1 h2
      · simp only [true_iff]
        left
        intro p hp
        rw [List.isEmpty_iff] at h1
        by_contra hact
        have : p ∈ s.runners.filter (fun p => p.2.isActive) := by
          rw [List.mem_filter]
          exact ⟨hp, by simpa using hact⟩
        rw [h1] at this
        simp at this
      · simp only [true_iff]
        right
        intro p hp hact
        rw [List.isEmpty_iff, List.filter_eq_nil_iff] at h2
        have hmem : p ∈ s.runners.filter (fun p => p.2.isActive) := by
          rw [List.mem_filter]; exact ⟨hp, hact⟩
        have := h2 p hmem
        simpa using this
      · rw [List.isEmpty_iff] at h2
        constructor
        · intro hnone
          exfalso
          cases hs : sortLe (fairLe tie)
              ((s.runners.filter (fun p => p.2.isActive)).filter
                (fun p => !runnerHasConflictingDelivery s p.1 time)) with
          | nil => exact h2 (sortLe_eq_nil_iff.mp hs)
          | cons h t => rw [hs] at hnone; simp at hnone
        · intro hcond
          exfalso
          rcases List.exists_mem_of_ne_nil _ h2 with ⟨p, hp⟩
          rw [List.mem_filter] at hp
          rcases hp with ⟨hp1, hp2⟩
          rw [List.mem_filter] at hp1
          rcases hp1 with ⟨hmem, hact⟩
          rcases hcond with hall | hconf
          · rw [hall p hmem] at hact; simp at hact
          · have := hconf p hmem hact
            rw [this] at hp2; simp at hp2
    · intro rid r hsome
      simp only [findSuitableRunner] at hsome
      split_ifs at hsome with h1 h2
      cases hs : sortLe (fairLe tie)
          ((s.runners.filter (fun p => p.2.isActive)).filter
            (fun p => !runnerHasConflictingDelivery s p.1 time)) with
      | nil => rw [hs] at hsome; simp at hsome
      | cons hd t =>
        rw [hs] at hsome
        simp only [List.head?_cons, Option.some.injEq] at hsome
        subst hsome
        have hdmem : (rid, r) ∈ sortLe (fairLe tie)
            ((s.runners.filter (fun p => p.2.isActive)).filter
              (fun p => !runnerHasConflictingDelivery s p.1 time)) := by
          rw [hs]; exact List.mem_cons_self _ _
        rw [mem_sortLe, List.mem_filter] at hdmem
        rcases hdmem with ⟨hsnap, hnoconf⟩
        rw [List.mem_filter] at hsnap
        rcases hsnap with ⟨hmem, hact⟩
        refine ⟨hmem, by simpa using hact, by simpa using hnoconf, ?_⟩
        intro p hp hpact hpnoconf
        have hpfil : p ∈ (s.runners.filter (fun p => p.2.isActive)).filter
            (fun p => !runnerHasConflictingDelivery s p.1 time) := by
          rw [List.mem_filter]
          exact ⟨by rw [List.mem_filter]; exact ⟨hp, hpact⟩, by simp [hpnoconf]⟩
        exact sortLe_head_min tie _ (rid, r) t hs p hpfil
  · intro tie
    show findSuitableRunner tie p4Store "18:00" = some (3, ⟨true, 1, 3, 0, []⟩)
    simp [findSuitableRunner, runnerHasConflictingDelivery, p4Store, sortLe, insertLe, fairLe]

/-! ## Runner-predicate invariants through the handlers -/

/-- A predicate holding of every runner document in the store. -/
def RunnersInv (P : Runner → Prop) (s : Store) : Prop := ∀ p ∈ s.runners, P p.2

/-- Closure of a runner predicate under every runner-document write performed
by the in-scope handlers other than the monthly reset: the two assignment-time
increments, the delivery-time counter update, the bulk-activation update, an
external `isActive` write, a freshly registered runner, and the daily reset. -/
structure CounterClosed (P : Runner → Prop) : Prop where
  assign : ∀ (r : Runner) (oid : Nat), P r →
    P { r with activeOrders := r.activeOrders + 1, orders := arrayUnion r.orders oid }
  deliver : ∀ r : Runner, P r →
    P { r with
        activeOrders := r.activeOrders - 1
        completedOrders := r.completedOrders + 1
        totalCompletedOrders := r.totalCompletedOrders + 1 }
  bulk : ∀ (r : Runner) (c : Int) (b : Bool), P r →
    P { r with activeOrders := r.activeOrders + c, isActive := b }
  flip : ∀ (r : Runner) (b : Bool), P r → P { r with isActive := b }
  fresh : ∀ b : Bool, P ⟨b, 0, 0, 0, []⟩
  daily : ∀ r : Runner, P r → P { r with completedOrders := 0 }

theorem runnersInv_updateRunnerDoc {P : Runner → Prop} {s : Store} {rid : Nat}
    {f : Runner → Runner} (h : RunnersInv P s) (hf : ∀ r, P r → P (f r)) :
    RunnersInv P (updateRunnerDoc s rid f) := by
  intro q hq
  rcases mem_runners_updateRunnerDoc hq with ⟨p, hp, heq⟩
  by_cases hk : p.1 = rid
  · rw [heq, if_pos hk]
    exact hf _ (h p hp)
  · rw [heq, if_neg hk]
    exact h p hp

theorem runnersInv_updateOrderDoc {P : Runner → Prop} {s : Store} {oid : Nat}
    {f : Order → Order} (h : RunnersInv P s) : RunnersInv P (updateOrderDoc s oid f) := by
  intro q hq
  rw [runners_updateOrderDoc] at hq
  exact h q hq

theorem runnersInv_onRunnerAssigned {P : Runner → Prop} (hc : CounterClosed P)
    {s : Store} (ev : OrderEvent) (h : RunnersInv P s) :
    RunnersInv P (onRunnerAssignedToOrderStep s ev).1 := by
  obtain ⟨oid, before, after⟩ := ev
  simp only [onRunnerAssignedToOrderStep]
  split
  · split
    · exact runnersInv_updateOrderDoc
        (runnersInv_updateRunnerDoc h (fun r hr => hc.assign r oid hr))
    · exact runnersInv_updateRunnerDoc h (fun r hr => hc.assign r oid hr)
  · exact h

theorem runnersInv_delivered {P : Runner → Prop} (hc : CounterClosed P)
    {s : Store} (ev : OrderEvent) (h : RunnersInv P s) :
    RunnersInv P (updateRunnerOnOrderDeliveredStep s ev) := by
  obtain ⟨oid, before, after⟩ := ev
  simp only [updateRunnerOnOrderDeliveredStep]
  split
  · split
    · split
      · exact runnersInv_updateRunnerDoc h (fun r hr => hc.deliver r hr)
      · exact h
    · exact h
  · exact h

theorem runnersInv_processEvents {P : Runner → Prop} (hc : CounterClosed P) :
    ∀ (fuel : Nat) (evs : List OrderEvent) (s : Store),
      RunnersInv P s → RunnersInv P (processEvents fuel s evs) := by
  intro fuel
  induction fuel with
  | zero => intro evs s h; exact h
  | succ n ih =>
    intro evs s h
    cases evs with
    | nil => exact h
    | cons ev rest =>
      simp only [processEvents]
      exact ih _ _ (runnersInv_delivered hc ev (runnersInv_onRunnerAssigned hc ev h))

theorem runnersInv_assignCreated {P : Runner → Prop} (hc : CounterClosed P)
    (tie : Nat → Nat → Bool) {s : Store} (oid : Nat) (h : RunnersInv P s) :
    RunnersInv P (assignRunnerOnOrderCreated tie s oid) := by
  simp only [assignRunnerOnOrderCreated]
  split
  · exact h
  · split
    · split
      · exact runnersInv_processEvents hc _ _ _
          (runnersInv_updateRunnerDoc (runnersInv_updateOrderDoc h)
            (fun r hr => hc.assign r _ hr))
      · exact runnersInv_processEvents hc _ _ _ (runnersInv_updateOrderDoc h)
    · exact h

theorem runnersInv_activation {P : Runner → Prop} (hc : CounterClosed P)
    {s : Store} (rid : Nat) (before after : Runner) (h : RunnersInv P s) :
    RunnersInv P (assignOrdersWhenRunnerActivates s rid before after) := by
  simp only [assignOrdersWhenRunnerActivates]
  split
  · split
    · exact h
    · refine runnersInv_processEvents hc _ _ _ (runnersInv_updateRunnerDoc ?_ ?_)
      · have hfold : ∀ (ts : List (Nat × Order)) (s0 : Store), RunnersInv P s0 →
            RunnersInv P (ts.foldl (fun acc p => updateOrderDoc acc p.1
              (fun o => { o with runner := some rid, waitingForRunner := none })) s0) := by
          intro ts
          induction ts with
          | nil => intro s0 h0; exact h0
          | cons t rest ih => intro s0 h0; exact ih _ (runnersInv_updateOrderDoc h0)
        exact hfold _ s h
      · intro r hr
        exact hc.bulk r _ _ hr
  · exact h

theorem runnersInv_applyOp {P : Runner → Prop} (hc : CounterClosed P)
    (tie : Nat → Nat → Bool) {op : Op} (hop : op ≠ Op.resetMonthly) {s : Store}
    (h : RunnersInv P s) : RunnersInv P (applyOp tie op s) := by
  cases op with
  | newRunner rid isActive =>
    simp only [applyOp]
    split
    · exact h
    · intro q hq
      rcases List.mem_append.mp hq with hq | hq
      · exact h q hq
      · rcases List.mem_singleton.mp hq with rfl
        exact hc.fresh _
  | createOrder oid time status preRunner =>
    simp only [applyOp]
    split
    · exact h
    · refine runnersInv_assignCreated hc tie oid ?_
      intro q hq
      exact h q hq
  | setStatus oid st =>
    simp only [applyOp]
    split
    · exact h
    · exact runnersInv_processEvents hc _ _ _ (runnersInv_updateOrderDoc h)
  | setActive rid b =>
    simp only [applyOp]
    split
    · exact h
    · exact runnersInv_activation hc _ _ _
        (runnersInv_updateRunnerDoc h (fun r hr => hc.flip r b hr))
  | resetDaily =>
    intro q hq
    simp only [applyOp, resetDailyCompletedOrders] at hq
    rcases List.mem_map.mp hq with ⟨p, hp, heq⟩
    subst heq
    exact hc.daily _ (h p hp)
  | resetMonthly => exact absurd rfl hop

theorem runnersInv_runOps {P : Runner → Prop} (hc : CounterClosed P)
    (tie : Nat → Nat → Bool) :
    ∀ (ops : List Op), Op.resetMonthly ∉ ops → ∀ {s : Store},
      RunnersInv P s → RunnersInv P (runOps tie ops s) := by
  intro ops
  induction ops with
  | nil => intro _ s h; exact h
  | cons op rest ih =>
    intro hmem s h
    simp only [runOps, List.foldl_cons]
    have h1 : op ≠ Op.resetMonthly := by
      intro heq; exact hmem (heq ▸ List.mem_cons_self _ _)
    have h2 : Op.resetMonthly ∉ rest := fun hr => hmem (List.mem_cons_of_mem _ hr)
    exact ih h2 (runnersInv_applyOp hc tie h1 h)

/-! ## Order well-formedness and preservation of assigned runners -/

/-- Well-formedness of the orders collection: document ids are unique, and an
order flagged `waitingForRunner` has no runner (the spec's "present only while
unassigned"; client code never writes the flag, only the handlers do). -/
def OrdersWf (s : Store) : Prop :=
  (s.orders.map Prod.fst).Nodup ∧
    ∀ p ∈ s.orders, p.2.waitingForRunner = some true → p.2.runner = none

/-- Relation stating `s'` keeps every runner assignment present in `s`: an order whose `runner`
is `some rid` in `s` still has `runner = some rid` in `s'`. -/
def KeepRunner (s s' : Store) : Prop :=
  ∀ oid rid, (∃ o, lookupOrder s oid = some o ∧ o.runner = some rid) →
    ∃ o', lookupOrder s' oid = some o' ∧ o'.runner = some rid

theorem keepRunner_refl (s : Store) : KeepRunner s s := fun _ _ h => h

theorem keepRunner_trans {a b c : Store} (h1 : KeepRunner a b) (h2 : KeepRunner b c) :
    KeepRunner a c := fun oid rid h => h2 oid rid (h1 oid rid h)

theorem find?_eq_of_mem_nodup {α : Type} :
    ∀ {l : List (Nat × α)}, (l.map Prod.fst).Nodup →
      ∀ {k : Nat} {v : α}, (k, v) ∈ l → l.find? (fun p => p.1 == k) = some (k, v) := by
  intro l
  induction l with
  | nil => intro _ k v hmem; simp at hmem
  | cons p rest ih =>
    intro hnd k v hmem
    rw [List.map_cons, List.nodup_cons] at hnd
    rcases List.mem_cons.mp hmem with rfl | hmem'
    · rw [List.find?_cons_of_pos _ (by simp)]
    · have hk : p.1 ≠ k := by
        intro he
        exact hnd.1 (he ▸ List.mem_map.mpr ⟨(k, v), hmem', rfl⟩)
      rw [List.find?_cons_of_neg _ (by simp [hk])]
      exact ih hnd.2 hmem'

theorem lookupOrder_of_mem_nodup {s : Store} (hnd : (s.orders.map Prod.fst).Nodup)
    {oid : Nat} {o : Order} (hmem : (oid, o) ∈ s.orders) : lookupOrder s oid = some o := by
  simp only [lookupOrder, find?_eq_of_mem_nodup hnd hmem, Option.map_some']

theorem lookupOrder_append_of_some {s : Store} {e : Nat × Order} {oid : Nat} {o : Order}
    (h : lookupOrder s oid = some o) :
    lookupOrder { s with orders := s.orders ++ [e] } oid = some o := by
  simp only [lookupOrder, List.find?_append] at h ⊢
  cases hf : s.orders.find? (fun p => p.1 == oid) with
  | none => rw [hf] at h; simp at h
  | some q => rw [hf] at h; simpa using h

theorem lookupRunner_append_of_some {s : Store} {e : Nat × Runner} {rid : Nat} {r : Runner}
    (h : lookupRunner s rid = some r) :
    lookupRunner { s with runners := s.runners ++ [e] } rid = some r := by
  simp only [lookupRunner, List.find?_append] at h ⊢
  cases hf : s.runners.find? (fun p => p.1 == rid) with
  | none => rw [hf] at h; simp at h
  | some q => rw [hf] at h; simpa using h

theorem not_mem_orderKeys_of_lookup_none {s : Store} {oid : Nat}
    (h : lookupOrder s oid = none) : oid ∉ s.orders.map Prod.fst := by
  intro hmem
  rcases List.mem_map.mp hmem with ⟨p, hp, hk⟩
  have hfind : s.orders.find? (fun p => p.1 == oid) = none := by
    cases hf : s.orders.find? (fun p => p.1 == oid) with
    | none => rfl
    | some q => simp only [lookupOrder, hf, Option.map_some'] at h; exact absurd h (by simp)
  have hnp := List.find?_eq_none.mp hfind p hp
  simp [hk] at hnp

theorem keepRunner_updateOrderDoc_preserving {s : Store} {oid : Nat} {f : Order → Order}
    (hf : ∀ o, (f o).runner = o.runner) : KeepRunner s (updateOrderDoc s oid f) := by
  rintro oid' rid ⟨o, ho, hr⟩
  rw [lookupOrder_updateOrderDoc]
  by_cases h : oid' = oid
  · rw [if_pos h, ho, Option.map_some']
    exact ⟨f o, rfl, (hf o).trans hr⟩
  · rw [if_neg h]
    exact ⟨o, ho, hr⟩

theorem keepRunner_updateOrderDoc_unassigned {s : Store} {oid : Nat} {f : Order → Order}
    {o0 : Order} (ho : lookupOrder s oid = some o0) (hr0 : o0.runner = none) :
    KeepRunner s (updateOrderDoc s oid f) := by
  rintro oid' rid ⟨o, ho', hr⟩
  rw [lookupOrder_updateOrderDoc]
  by_cases h : oid' = oid
  · subst h
    rw [ho] at ho'
    rcases Option.some.inj ho' with rfl
    rw [hr0] at hr
    exact absurd hr (by simp)
  · rw [if_neg h]
    exact ⟨o, ho', hr⟩

theorem keepRunner_updateRunnerDoc {s : Store} {rid : Nat} {f : Runner → Runner} :
    KeepRunner s (updateRunnerDoc s rid f) := fun _ _ h => h

theorem keepRunner_onRunnerAssigned (s : Store) (ev : OrderEvent) :
    KeepRunner s (onRunnerAssignedToOrderStep s ev).1 := by
  obtain ⟨oid, before, after⟩ := ev
  simp only [onRunnerAssignedToOrderStep]
  split
  · split
    · exact keepRunner_trans keepRunner_updateRunnerDoc
        (keepRunner_updateOrderDoc_preserving (fun o => rfl))
    · exact keepRunner_updateRunnerDoc
  · exact keepRunner_refl s

theorem keepRunner_delivered (s : Store) (ev : OrderEvent) :
    KeepRunner s (updateRunnerOnOrderDeliveredStep s ev) := by
  obtain ⟨oid, before, after⟩ := ev
  simp only [updateRunnerOnOrderDeliveredStep]
  split
  · split
    · split
      · exact keepRunner_updateRunnerDoc
      · exact keepRunner_refl s
    · exact keepRunner_refl s
  · exact keepRunner_refl s

theorem keepRunner_processEvents :
    ∀ (fuel : Nat) (evs : List OrderEvent) (s : Store),
      KeepRunner s (processEvents fuel s evs) := by
  intro fuel
  induction fuel with
  | zero => intro evs s; exact keepRunner_refl s
  | succ n ih =>
    intro evs s
    cases evs with
    | nil => exact keepRunner_refl s
    | cons ev rest =>
      simp only [processEvents]
      exact keepRunner_trans
        (keepRunner_trans (keepRunner_onRunnerAssigned s ev)
          (keepRunner_delivered _ ev))
        (ih _ _)

theorem ordersWf_updateRunnerDoc {s : Store} {rid : Nat} {f : Runner → Runner}
    (hW : OrdersWf s) : OrdersWf (updateRunnerDoc s rid f) := hW

theorem ordersWf_updateOrderDoc_mono {s : Store} {oid : Nat} {f : Order → Order}
    (hW : OrdersWf s)
    (hf : ∀ o : Order, (o.waitingForRunner = some true → o.runner = none) →
      ((f o).waitingForRunner = some true → (f o).runner = none)) :
    OrdersWf (updateOrderDoc s oid f) := by
  refine ⟨by rw [orderKeys_updateOrderDoc]; exact hW.1, ?_⟩
  intro q hq
  rcases mem_orders_updateOrderDoc hq with ⟨p, hp, heq⟩
  by_cases h : p.1 = oid
  · rw [heq, if_pos h]
    exact hf p.2 (hW.2 p hp)
  · rw [heq, if_neg h]
    exact hW.2 p hp

theorem ordersWf_updateOrderDoc_target {s : Store} {oid : Nat} {f : Order → Order}
    {o0 : Order} (hW : OrdersWf s) (ho : lookupOrder s oid = some o0)
    (hf : (f o0).waitingForRunner = some true → (f o0).runner = none) :
    OrdersWf (updateOrderDoc s oid f) := by
  refine ⟨by rw [orderKeys_updateOrderDoc]; exact hW.1, ?_⟩
  intro q hq
  rcases mem_orders_updateOrderDoc hq with ⟨p, hp, heq⟩
  by_cases h : p.1 = oid
  · have hlk : lookupOrder s p.1 = some p.2 := lookupOrder_of_mem_nodup hW.1 (by
      rcases p with ⟨pk, pv⟩; exact hp)
    rw [h, ho] at hlk
    rcases Option.some.inj hlk with rfl
    rw [heq, if_pos h]
    exact hf
  · rw [heq, if_neg h]
    exact hW.2 p hp

theorem ordersWf_onRunnerAssigned {s : Store} (ev : OrderEvent) (hW : OrdersWf s) :
    OrdersWf (onRunnerAssignedToOrderStep s ev).1 := by
  obtain ⟨oid, before, after⟩ := ev
  simp only [onRunnerAssignedToOrderStep]
  split
  · split
    · exact ordersWf_updateOrderDoc_mono (ordersWf_updateRunnerDoc hW)
        (fun o _ h => absurd h (by simp))
    · exact ordersWf_updateRunnerDoc hW
  · exact hW

theorem ordersWf_delivered {s : Store} (ev : OrderEvent) (hW : OrdersWf s) :
    OrdersWf (updateRunnerOnOrderDeliveredStep s ev) := by
  obtain ⟨oid, before, after⟩ := ev
  simp only [updateRunnerOnOrderDeliveredStep]
  split
  · split
    · split
      · exact ordersWf_updateRunnerDoc hW
      · exact hW
    · exact hW
  · exact hW

theorem ordersWf_processEvents :
    ∀ (fuel : Nat) (evs : List OrderEvent) (s : Store),
      OrdersWf s → OrdersWf (processEvents fuel s evs) := by
  intro fuel
  induction fuel with
  | zero => intro evs s h; exact h
  | succ n ih =>
    intro evs s h
    cases evs with
    | nil => exact h
    | cons ev rest =>
      simp only [processEvents]
      exact ih _ _ (ordersWf_delivered ev (ordersWf_onRunnerAssigned ev h))

theorem ordersWf_assignCreated {s : Store} (tie : Nat → Nat → Bool) (oid : Nat)
    (hW : OrdersWf s) : OrdersWf (assignRunnerOnOrderCreated tie s oid) := by
  simp only [assignRunnerOnOrderCreated]
  split
  · exact hW
  · next order horder =>
    split
    · next hrun =>
      split
      · exact ordersWf_processEvents _ _ _
          (ordersWf_updateRunnerDoc
            (ordersWf_updateOrderDoc_mono hW (fun o _ h => absurd h (by simp))))
      · exact ordersWf_processEvents _ _ _
          (ordersWf_updateOrderDoc_target hW horder (fun _ => hrun))
    · exact hW

theorem ordersWf_batchAssign {rid : Nat} :
    ∀ (ts : List (Nat × Order)) (s0 : Store), OrdersWf s0 →
      OrdersWf (ts.foldl (fun acc p => updateOrderDoc acc p.1
        (fun o => { o with runner := some rid, waitingForRunner := none })) s0) := by
  intro ts
  induction ts with
  | nil => intro s0 h0; exact h0
  | cons t rest ih =>
    intro s0 h0
    exact ih _ (ordersWf_updateOrderDoc_mono h0 (fun o _ h => absurd h (by simp)))

theorem ordersWf_activation {s : Store} (rid : Nat) (before after : Runner)
    (hW : OrdersWf s) : OrdersWf (assignOrdersWhenRunnerActivates s rid before after) := by
  simp only [assignOrdersWhenRunnerActivates]
  split
  · split
    · exact hW
    · exact ordersWf_processEvents _ _ _
        (ordersWf_updateRunnerDoc (ordersWf_batchAssign _ s hW))
  · exact hW

theorem ordersWf_applyOp {s : Store} (tie : Nat → Nat → Bool) (op : Op)
    (hW : OrdersWf s) : OrdersWf (applyOp tie op s) := by
  cases op with
  | newRunner rid isActive =>
    simp only [applyOp]
    split
    · exact hW
    · exact hW
  | createOrder oid time status preRunner =>
    simp only [applyOp]
    split
    · exact hW
    · next hnone =>
      refine ordersWf_assignCreated tie oid ⟨?_, ?_⟩
      · have hfresh := not_mem_orderKeys_of_lookup_none hnone
        simp only [List.map_append, List.map_cons, List.map_nil]
        rw [List.nodup_append]
        exact ⟨hW.1, List.nodup_singleton _, by simpa using fun h => hfresh h⟩
      · intro q hq
        rcases List.mem_append.mp hq with hq | hq
        · exact hW.2 q hq
        · rcases List.mem_singleton.mp hq with rfl
          intro hwait
          simp at hwait
  | setStatus oid st =>
    simp only [applyOp]
    split
    · exact hW
    · exact ordersWf_processEvents _ _ _
        (ordersWf_updateOrderDoc_mono hW (fun o h => h))
  | setActive rid b =>
    simp only [applyOp]
    split
    · exact hW
    · exact ordersWf_activation _ _ _ (ordersWf_updateRunnerDoc hW)
  | resetDaily => exact hW
  | resetMonthly => exact hW

theorem ordersWf_runOps (tie : Nat → Nat → Bool) :
    ∀ (ops : List Op) {s : Store}, OrdersWf s → OrdersWf (runOps tie ops s) := by
  intro ops
  induction ops with
  | nil => intro s h; exact h
  | cons op rest ih =>
    intro s h
    simp only [runOps, List.foldl_cons]
    exact ih (ordersWf_applyOp tie op h)

theorem ordersWf_initStore : OrdersWf initStore :=
  ⟨List.nodup_nil, fun q hq => absurd hq (List.not_mem_nil q)⟩

theorem keepRunner_batchAssign {rid : Nat} :
    ∀ (ts : List (Nat × Order)) (s0 : Store),
      (∀ q ∈ ts, lookupOrder s0 q.1 = some q.2 ∧ q.2.runner = none) →
      (ts.map Prod.fst).Nodup →
      KeepRunner s0 (ts.foldl (fun acc p => updateOrderDoc acc p.1
        (fun o => { o with runner := some rid, waitingForRunner := none })) s0) := by
  intro ts
  induction ts with
  | nil => intro s0 _ _; exact keepRunner_refl s0
  | cons t rest ih =>
    intro s0 hts hnd
    simp only [List.foldl_cons]
    rw [List.map_cons, List.nodup_cons] at hnd
    have h1 := hts t (List.mem_cons_self t rest)
    refine keepRunner_trans (keepRunner_updateOrderDoc_unassigned h1.1 h1.2) (ih _ ?_ hnd.2)
    intro q hq
    have hqt : q.1 ≠ t.1 := by
      intro he
      exact hnd.1 (he ▸ List.mem_map.mpr ⟨q, hq, rfl⟩)
    refine ⟨?_, (hts q (List.mem_cons_of_mem _ hq)).2⟩
    rw [lookupOrder_updateOrderDoc, if_neg hqt]
    exact (hts q (List.mem_cons_of_mem _ hq)).1

theorem keepRunner_assignCreated {s : Store} (tie : Nat → Nat → Bool) (oid : Nat) :
    KeepRunner s (assignRunnerOnOrderCreated tie s oid) := by
  simp only [assignRunnerOnOrderCreated]
  split
  · exact keepRunner_refl s
  · next order horder =>
    split
    · next hrun =>
      split
      · exact keepRunner_trans
          (keepRunner_trans (keepRunner_updateOrderDoc_unassigned horder hrun)
            keepRunner_updateRunnerDoc)
          (keepRunner_processEvents _ _ _)
      · refine keepRunner_trans ?_ (keepRunner_processEvents _ _ _)
        exact keepRunner_updateOrderDoc_preserving (fun o => rfl)
    · exact keepRunner_refl s

theorem keepRunner_activation {s : Store} (rid : Nat) (before after : Runner)
    (hW : OrdersWf s) : KeepRunner s (assignOrdersWhenRunnerActivates s rid before after) := by
  simp only [assignOrdersWhenRunnerActivates]
  split
  · split
    · exact keepRunner_refl s
    · refine keepRunner_trans (keepRunner_batchAssign _ _ ?_ ?_)
        (keepRunner_trans keepRunner_updateRunnerDoc (keepRunner_processEvents _ _ _))
      · intro q hq
        have hqf : q ∈ s.orders.filter (fun p => p.2.waitingForRunner == some true) :=
          List.Sublist.mem hq (List.take_sublist _ _)
        have hqo : q ∈ s.orders := (List.mem_filter.mp hqf).1
        have hqw : q.2.waitingForRunner = some true := by
          simpa using (List.mem_filter.mp hqf).2
        refine ⟨?_, hW.2 q hqo hqw⟩
        exact lookupOrder_of_mem_nodup hW.1 (by rcases q with ⟨qk, qv⟩; exact hqo)
      · have hsub : List.Sublist
            ((s.orders.filter (fun p => p.2.waitingForRunner == some true)).take 5)
            s.orders :=
          (List.take_sublist _ _).trans (List.filter_sublist _)
        exact (hsub.map Prod.fst).nodup hW.1
  · exact keepRunner_refl s

theorem keepRunner_applyOp {s : Store} (tie : Nat → Nat → Bool) (op : Op)
    (hW : OrdersWf s) : KeepRunner s (applyOp tie op s) := by
  cases op with
  | newRunner rid isActive =>
    simp only [applyOp]
    split
    · exact keepRunner_refl s
    · exact fun _ _ h => h
  | createOrder oid time status preRunner =>
    simp only [applyOp]
    split
    · exact keepRunner_refl s
    · refine keepRunner_trans ?_ (keepRunner_assignCreated tie oid)
      rintro oid' rid ⟨o, ho, hr⟩
      exact ⟨o, lookupOrder_append_of_some ho, hr⟩
  | setStatus oid st =>
    simp only [applyOp]
    split
    · exact keepRunner_refl s
    · refine keepRunner_trans ?_ (keepRunner_processEvents _ _ _)
      exact keepRunner_updateOrderDoc_preserving (fun o => rfl)
  | setActive rid b =>
    simp only [applyOp]
    split
    · exact keepRunner_refl s
    · exact keepRunner_trans keepRunner_updateRunnerDoc
        (keepRunner_activation _ _ _ (ordersWf_updateRunnerDoc hW))
  | resetDaily => exact fun _ _ h => h
  | resetMonthly => exact fun _ _ h => h

theorem keepRunner_runOps (tie : Nat → Nat → Bool) :
    ∀ (ops : List Op) {s : Store}, OrdersWf s → KeepRunner s (runOps tie ops s) := by
  intro ops
  induction ops with
  | nil => intro s _; exact keepRunner_refl s
  | cons op rest ih =>
    intro s hW
    simp only [runOps, List.foldl_cons]
    exact keepRunner_trans (keepRunner_applyOp tie op hW) (ih (ordersWf_applyOp tie op hW))

/-- C7: in every state reachable by in-scope operations, an order whose
`runner` field is set keeps that exact runner under any further in-scope
operations: the creation-time assigner acts only on orders with no runner, and
the activation bulk path assigns only orders flagged `waitingForRunner`, which
(by the preserved well-formedness invariant) never have a runner. -/
theorem c7_assigned_runner_is_stable (tie : Nat → Nat → Bool) (pre post : List Op)
    (oid rid : Nat) (o : Order)
    (ho : lookupOrder (runOps tie pre initStore) oid = some o)
    (hr : o.runner = some rid) :
    ∃ o', lookupOrder (runOps tie (pre ++ post) initStore) oid = some o' ∧
      o'.runner = some rid := by
  have hsplit : runOps tie (pre ++ post) initStore =
      runOps tie post (runOps tie pre initStore) := by
    simp only [runOps, List.foldl_append]
  rw [hsplit]
  exact keepRunner_runOps tie post (ordersWf_runOps tie pre ordersWf_initStore)
    oid rid ⟨o, ho, hr⟩

/-- Witness for C7: order 1 is assigned to runner 0 at creation; after another
runner registers, activates (running the bulk-assignment path) and the order
is delivered, order 1 still references runner 0. -/
theorem c7_assigned_runner_is_stable_witness :
    lookupOrder (runOps tie0 [Op.newRunner 0 true,
        Op.createOrder 1 "18:00" Status.received none] initStore) 1 =
      some ⟨Status.received, "18:00", some 0, none⟩ ∧
    ∃ o', lookupOrder (runOps tie0 ([Op.newRunner 0 true,
        Op.createOrder 1 "18:00" Status.received none] ++
        [Op.newRunner 2 true, Op.setActive 2 true, Op.setStatus 1 Status.delivered])
        initStore) 1 = some o' ∧ o'.runner = some 0 :=
  ⟨by decide, c7_assigned_runner_is_stable tie0 _ _ 1 0
    ⟨Status.received, "18:00", some 0, none⟩ (by decide) rfl⟩

/-! ## The runner `orders` array -/

/-- The `orders` array of a runner document (empty when the document is
missing). -/
def ordersOf (s : Store) (rid : Nat) : List Nat :=
  ((lookupRunner s rid).map Runner.orders).getD []

/-- Relation stating `s'` has every runner's `orders` array a superset of its array in `s`. -/
def OrdersGrow (s s' : Store) : Prop :=
  ∀ rid x, x ∈ ordersOf s rid → x ∈ ordersOf s' rid

theorem ordersGrow_refl (s : Store) : OrdersGrow s s := fun _ _ h => h

theorem ordersGrow_trans {a b c : Store} (h1 : OrdersGrow a b) (h2 : OrdersGrow b c) :
    OrdersGrow a c := fun rid x h => h2 rid x (h1 rid x h)

theorem mem_arrayUnion_left {l : List Nat} {x : Nat} (y : Nat) (h : x ∈ l) :
    x ∈ arrayUnion l y := by
  unfold arrayUnion
  split
  · exact h
  · exact List.mem_append_left _ h

theorem mem_arrayUnion_self (l : List Nat) (y : Nat) : y ∈ arrayUnion l y := by
  unfold arrayUnion
  split
  · assumption
  · exact List.mem_append_right _ (List.mem_singleton.mpr rfl)

theorem ordersGrow_updateRunnerDoc {s : Store} {rid : Nat} {f : Runner → Runner}
    (hf : ∀ r, ∀ x ∈ r.orders, x ∈ (f r).orders) :
    OrdersGrow s (updateRunnerDoc s rid f) := by
  intro rid' x hx
  unfold ordersOf at hx ⊢
  rw [lookupRunner_updateRunnerDoc]
  by_cases h : rid' = rid
  · rw [if_pos h]
    cases hl : lookupRunner s rid' with
    | none => rw [hl] at hx; simp at hx
    | some r =>
      rw [hl] at hx
      simp only [Option.map_some', Option.getD_some] at hx ⊢
      exact hf r x hx
  · rw [if_neg h]
    exact hx

theorem ordersGrow_updateOrderDoc {s : Store} {oid : Nat} {f : Order → Order} :
    OrdersGrow s (updateOrderDoc s oid f) := fun _ _ h => h

theorem ordersGrow_appendRunner {s : Store} {e : Nat × Runner} :
    OrdersGrow s { s with runners := s.runners ++ [e] } := by
  intro rid x hx
  unfold ordersOf at hx ⊢
  cases hl : lookupRunner s rid with
  | none => rw [hl] at hx; simp at hx
  | some r => rw [hl] at hx; rw [lookupRunner_append_of_some hl]; exact hx

theorem ordersGrow_onRunnerAssigned (s : Store) (ev : OrderEvent) :
    OrdersGrow s (onRunnerAssignedToOrderStep s ev).1 := by
  obtain ⟨oid, before, after⟩ := ev
  simp only [onRunnerAssignedToOrderStep]
  split
  · split
    · exact ordersGrow_trans
        (ordersGrow_updateRunnerDoc (fun r x hx => mem_arrayUnion_left _ hx))
        ordersGrow_updateOrderDoc
    · exact ordersGrow_updateRunnerDoc (fun r x hx => mem_arrayUnion_left _ hx)
  · exact ordersGrow_refl s

theorem ordersGrow_delivered (s : Store) (ev : OrderEvent) :
    OrdersGrow s (updateRunnerOnOrderDeliveredStep s ev) := by
  obtain ⟨oid, before, after⟩ := ev
  simp only [updateRunnerOnOrderDeliveredStep]
  split
  · split
    · split
      · exact ordersGrow_updateRunnerDoc (fun r x hx => hx)
      · exact ordersGrow_refl s
    · exact ordersGrow_refl s
  · exact ordersGrow_refl s

theorem ordersGrow_processEvents :
    ∀ (fuel : Nat) (evs : List OrderEvent) (s : Store),
      OrdersGrow s (processEvents fuel s evs) := by
  intro fuel
  induction fuel with
  | zero => intro evs s; exact ordersGrow_refl s
  | succ n ih =>
    intro evs s
    cases evs with
    | nil => exact ordersGrow_refl s
    | cons ev rest =>
      simp only [processEvents]
      exact ordersGrow_trans
        (ordersGrow_trans (ordersGrow_onRunnerAssigned s ev) (ordersGrow_delivered _ ev))
        (ih _ _)

theorem ordersGrow_assignCreated {s : Store} (tie : Nat → Nat → Bool) (oid : Nat) :
    OrdersGrow s (assignRunnerOnOrderCreated tie s oid) := by
  simp only [assignRunnerOnOrderCreated]
  split
  · exact ordersGrow_refl s
  · split
    · split
      · refine ordersGrow_trans ?_ (ordersGrow_processEvents _ _ _)
        refine ordersGrow_trans ?_
          (ordersGrow_updateRunnerDoc (fun r x hx => mem_arrayUnion_left _ hx))
        exact ordersGrow_updateOrderDoc
      · refine ordersGrow_trans ?_ (ordersGrow_processEvents _ _ _)
        exact ordersGrow_updateOrderDoc
    · exact ordersGrow_refl s

theorem ordersGrow_batchAssign {rid : Nat} :
    ∀ (ts : List (Nat × Order)) (s0 : Store),
      OrdersGrow s0 (ts.foldl (fun acc p => updateOrderDoc acc p.1
        (fun o => { o with runner := some rid, waitingForRunner := none })) s0) := by
  intro ts
  induction ts with
  | nil => intro s0; exact ordersGrow_refl s0
  | cons t rest ih =>
    intro s0
    simp only [List.foldl_cons]
    exact ordersGrow_trans ordersGrow_updateOrderDoc (ih _)

theorem ordersGrow_activation {s : Store} (rid : Nat) (before after : Runner) :
    OrdersGrow s (assignOrdersWhenRunnerActivates s rid before after) := by
  simp only [assignOrdersWhenRunnerActivates]
  split
  · split
    · exact ordersGrow_refl s
    · refine ordersGrow_trans ?_ (ordersGrow_processEvents _ _ _)
      refine ordersGrow_trans ?_ (ordersGrow_updateRunnerDoc (fun r x hx => hx))
      exact ordersGrow_batchAssign _ _
  · exact ordersGrow_refl s

theorem find?_map_snd {α : Type} (l : List (Nat × α)) (g : α → α) (k : Nat) :
    (l.map (fun p => (p.1, g p.2))).find? (fun p => p.1 == k) =
      (l.find? (fun p => p.1 == k)).map (fun p => (p.1, g p.2)) := by
  induction l with
  | nil => simp
  | cons p rest ih =>
    by_cases h : p.1 = k
    · rw [List.map_cons, List.find?_cons_of_pos _ (by simp [h]),
        List.find?_cons_of_pos _ (by simp [h]), Option.map_some']
    · rw [List.map_cons, List.find?_cons_of_neg _ (by simp [h]),
        List.find?_cons_of_neg _ (by simp [h]), ih]

theorem ordersGrow_mapRunners {s : Store} {g : Runner → Runner}
    (hg : ∀ r, (g r).orders = r.orders) :
    OrdersGrow s { s with runners := s.runners.map (fun p => (p.1, g p.2)) } := by
  intro rid x hx
  unfold ordersOf lookupRunner at hx ⊢
  rw [find?_map_snd]
  cases hf : s.runners.find? (fun p => p.1 == rid) with
  | none => rw [hf] at hx; simp at hx
  | some q =>
    rw [hf] at hx
    simp only [Option.map_some', Option.getD_some] at hx ⊢
    rw [hg]
    exact hx

theorem ordersGrow_applyOp {s : Store} (tie : Nat → Nat → Bool) (op : Op) :
    OrdersGrow s (applyOp tie op s) := by
  cases op with
  | newRunner rid isActive =>
    simp only [applyOp]
    split
    · exact ordersGrow_refl s
    · exact ordersGrow_appendRunner
  | createOrder oid time status preRunner =>
    simp only [applyOp]
    split
    · exact ordersGrow_refl s
    · refine ordersGrow_trans (show OrdersGrow s
        { s with orders := s.orders ++ [(oid, ⟨status, time, preRunner, none⟩)] }
        from fun _ _ h => h) (ordersGrow_assignCreated tie oid)
  | setStatus oid st =>
    simp only [applyOp]
    split
    · exact ordersGrow_refl s
    · exact ordersGrow_trans ordersGrow_updateOrderDoc (ordersGrow_processEvents _ _ _)
  | setActive rid b =>
    simp only [applyOp]
    split
    · exact ordersGrow_refl s
    · refine ordersGrow_trans ?_ (ordersGrow_activation _ _ _)
      exact ordersGrow_updateRunnerDoc (fun r x hx => hx)
  | resetDaily =>
    simp only [applyOp, resetDailyCompletedOrders]
    exact @ordersGrow_mapRunners s (fun r => { r with completedOrders := 0 }) (fun r => rfl)
  | resetMonthly =>
    simp only [applyOp, resetMonthlyCompletedOrders]
    exact @ordersGrow_mapRunners s (fun r => { r with totalCompletedOrders := 0 })
      (fun r => rfl)

theorem findSuitableRunner_some_mem {tie : Nat → Nat → Bool} {s : Store} {time : String}
    {rid : Nat} {r : Runner} (h : findSuitableRunner tie s time = some (rid, r)) :
    (rid, r) ∈ s.runners := by
  simp only [findSuitableRunner] at h
  split_ifs at h with h1 h2
  cases hs : sortLe (fairLe tie)
      ((s.runners.filter (fun p => p.2.isActive)).filter
        (fun p => !runnerHasConflictingDelivery s p.1 time)) with
  | nil => rw [hs] at h; simp at h
  | cons hd t =>
    rw [hs] at h
    simp only [List.head?_cons, Option.some.injEq] at h
    subst h
    have : (rid, r) ∈ sortLe (fairLe tie)
        ((s.runners.filter (fun p => p.2.isActive)).filter
          (fun p => !runnerHasConflictingDelivery s p.1 time)) := by
      rw [hs]; exact List.mem_cons_self _ _
    rw [mem_sortLe, List.mem_filter] at this
    exact (List.mem_filter.mp this.1).1

theorem lookupRunner_isSome_of_mem {s : Store} {rid : Nat} {r : Runner}
    (h : (rid, r) ∈ s.runners) : ∃ r', lookupRunner s rid = some r' := by
  cases hf : s.runners.find? (fun p => p.1 == rid) with
  | none =>
    have := List.find?_eq_none.mp hf (rid, r) h
    simp at this
  | some q => exact ⟨q.2, by simp [lookupRunner, hf]⟩

/-- C10: across every in-scope operation a runner's `orders` array only grows
— delivery completion never removes entries — and every successful
creation-time or update-time assignment array-unions the assigned order's
reference into the selected runner's `orders` array.  (The array is a frame
effect of the code, absent from the spec's runner data model.) -/
theorem c10_runner_orders_array_only_grows :
    (∀ (tie : Nat → Nat → Bool) (ops : List Op) (s : Store) (rid x : Nat),
        x ∈ ordersOf s rid → x ∈ ordersOf (runOps tie ops s) rid) ∧
    (∀ (tie : Nat → Nat → Bool) (s : Store) (oid : Nat) (o : Order) (rid : Nat) (rd : Runner),
        lookupOrder s oid = some o → o.runner = none →
        findSuitableRunner tie s o.deliveryTime = some (rid, rd) →
        oid ∈ ordersOf (assignRunnerOnOrderCreated tie s oid) rid) ∧
    (∀ (s : Store) (oid : Nat) (before after : Order) (rid : Nat) (r : Runner),
        before.runner = none → after.runner = some rid → lookupRunner s rid = some r →
        oid ∈ ordersOf (onRunnerAssignedToOrderStep s (oid, before, after)).1 rid) := by
  refine ⟨?_, ?_, ?_⟩
  · intro tie ops
    induction ops with
    | nil => intro s rid x hx; exact hx
    | cons op rest ih =>
      intro s rid x hx
      simp only [runOps, List.foldl_cons]
      exact ih _ rid x (ordersGrow_applyOp tie op rid x hx)
  · intro tie s oid o rid rd ho hrun hfind
    have hred : assignRunnerOnOrderCreated tie s oid =
        processEvents 8
          (updateRunnerDoc (updateOrderDoc s oid
              (fun o => { o with runner := some rid, waitingForRunner := none })) rid
            (fun r => { r with
              activeOrders := r.activeOrders + 1
              orders := arrayUnion r.orders oid }))
          [(oid, o, { o with runner := some rid, waitingForRunner := none })] := by
      simp only [assignRunnerOnOrderCreated, ho, hrun, hfind, if_true]
    rw [hred]
    rcases lookupRunner_isSome_of_mem (findSuitableRunner_some_mem hfind) with ⟨r', hr'⟩
    refine ordersGrow_processEvents 8 _ _ rid oid ?_
    unfold ordersOf
    rw [lookupRunner_updateRunnerDoc, if_pos rfl, lookupRunner_updateOrderDoc, hr']
    simp only [Option.map_some', Option.getD_some]
    exact mem_arrayUnion_self _ _
  · intro s oid before after rid r hb ha hr
    simp only [onRunnerAssignedToOrderStep, hb, ha]
    split
    · unfold ordersOf
      rw [lookupRunner_updateOrderDoc, lookupRunner_updateRunnerDoc, if_pos rfl, hr]
      simp only [Option.map_some', Option.getD_some]
      exact mem_arrayUnion_self _ _
    · unfold ordersOf
      rw [lookupRunner_updateRunnerDoc, if_pos rfl, hr]
      simp only [Option.map_some', Option.getD_some]
      exact mem_arrayUnion_self _ _

/-- An unassigned order 3 at "18:00" and one free active runner. -/
def w10Store : Store :=
  ⟨[(3, ⟨.received, "18:00", none, none⟩)], [(0, ⟨true, 0, 0, 0, []⟩)]⟩

/-- Witness for C10: growth of a non-empty `orders` array across operations, a
creation-time assignment adding order 3, and an update-time assignment adding
order 2. -/
theorem c10_runner_orders_array_only_grows_witness :
    (5 : Nat) ∈ ordersOf c8Store 0 ∧
    (5 : Nat) ∈ ordersOf (runOps tie0 [Op.resetDaily, Op.setStatus 5 Status.delivered]
      c8Store) 0 ∧
    (3 : Nat) ∈ ordersOf (assignRunnerOnOrderCreated tie0 w10Store 3) 0 ∧
    (2 : Nat) ∈ ordersOf (onRunnerAssignedToOrderStep
      (⟨[], [(0, ⟨true, 0, 0, 0, []⟩)]⟩ : Store)
      (2, ⟨.received, "18:00", none, none⟩, ⟨.received, "18:00", some 0, none⟩)).1 0 := by
  refine ⟨by decide, ?_, ?_, ?_⟩
  · exact c10_runner_orders_array_only_grows.1 tie0
      [Op.resetDaily, Op.setStatus 5 Status.delivered] c8Store 0 5 (by decide)
  · exact c10_runner_orders_array_only_grows.2.1 tie0 w10Store 3
      ⟨.received, "18:00", none, none⟩ 0 ⟨true, 0, 0, 0, []⟩ (by decide) rfl (by decide)
  · exact c10_runner_orders_array_only_grows.2.2 ⟨[], [(0, ⟨true, 0, 0, 0, []⟩)]⟩ 2
      ⟨.received, "18:00", none, none⟩ ⟨.received, "18:00", some 0, none⟩ 0
      ⟨true, 0, 0, 0, []⟩ rfl rfl (by decide)

/-! ## The check-then-act split of the creation-time assigner

`assignRunnerOnOrderCreated` awaits `findSuitableRunner` (reads only) and then
performs its writes: the read/select step and the write step are separate
atomic phases with no transaction around them.  `assignReadPhase` is the
selection computed from a snapshot of the store (`none` = handler skipped,
because the order is missing or already has a runner); `assignWritePhase`
applies the writes for a previously computed selection to the current store.
Sequential composition of the two phases is exactly the handler; interleaving
two handler instances' phases exhibits the race. -/

def assignReadPhase (tie : Nat → Nat → Bool) (s : Store) (oid : Nat) :
    Option (Option (Nat × Runner)) :=
  match lookupOrder s oid with
  | none => none
  | some order =>
    if order.runner = none then some (findSuitableRunner tie s order.deliveryTime) else none

def assignWritePhase (s : Store) (oid : Nat) :
    Option (Option (Nat × Runner)) → Store
  | none => s
  | some sel =>
    match lookupOrder s oid with
    | none => s
    | some order =>
      match sel with
      | some (rid, _) =>
        let s1 := updateOrderDoc s oid
          (fun o => { o with runner := some rid, waitingForRunner := none })
        let s2 := updateRunnerDoc s1 rid
          (fun r => { r with
            activeOrders := r.activeOrders + 1
            orders := arrayUnion r.orders oid })
        processEvents 8 s2 [(oid, order, { order with runner := some rid, waitingForRunner := none })]
      | none =>
        processEvents 8 (updateOrderDoc s oid (fun o => { o with waitingForRunner := some true }))
          [(oid, order, { order with waitingForRunner := some true })]

/-- Two unassigned orders at "18:00" and two active runners; runner 0 is
strictly preferred (fewer completed orders). -/
def raceStore : Store :=
  ⟨[(10, ⟨.received, "18:00", none, none⟩), (11, ⟨.received, "18:00", none, none⟩)],
   [(0, ⟨true, 0, 0, 0, []⟩), (1, ⟨true, 0, 1, 0, []⟩)]⟩

/-- C9: the creation handler is exactly the sequential composition of its read
phase and its write phase (so selection and increment are separate steps), and
under the interleaving read(10), read(11), write(10), write(11) both creation
events observe the same stale `activeOrders`, select the same least-loaded
runner 0, and both orders end up assigned to runner 0 — whereas the serial
execution would assign order 11 to runner 1 (the stale read is a
check-then-act race). -/
theorem c9_check_then_act_race :
    (∀ (tie : Nat → Nat → Bool) (s : Store) (oid : Nat),
      assignRunnerOnOrderCreated tie s oid =
        assignWritePhase s oid (assignReadPhase tie s oid)) ∧
    assignReadPhase tie0 raceStore 10 = some (some (0, ⟨true, 0, 0, 0, []⟩)) ∧
    assignReadPhase tie0 raceStore 11 = some (some (0, ⟨true, 0, 0, 0, []⟩)) ∧
    ((lookupOrder (assignWritePhase (assignWritePhase raceStore 10
        (assignReadPhase tie0 raceStore 10)) 11
        (assignReadPhase tie0 raceStore 11)) 10).map Order.runner = some (some 0) ∧
     (lookupOrder (assignWritePhase (assignWritePhase raceStore 10
        (assignReadPhase tie0 raceStore 10)) 11
        (assignReadPhase tie0 raceStore 11)) 11).map Order.runner = some (some 0)) ∧
    assignReadPhase tie0 (assignRunnerOnOrderCreated tie0 raceStore 10) 11 =
      some (some (1, ⟨true, 0, 1, 0, []⟩)) := by
  refine ⟨?_, by decide, by decide, ⟨by decide, by decide⟩, by decide⟩
  intro tie s oid
  cases h : lookupOrder s oid with
  | none => simp [assignRunnerOnOrderCreated, assignReadPhase, assignWritePhase, h]
  | some order =>
    by_cases hr : order.runner = none
    · cases hf : findSuitableRunner tie s order.deliveryTime with
      | none =>
        simp [assignRunnerOnOrderCreated, assignReadPhase, assignWritePhase, h, hr, hf]
      | some sel =>
        obtain ⟨rid, rd⟩ := sel
        simp [assignRunnerOnOrderCreated, assignReadPhase, assignWritePhase, h, hr, hf]
    · simp [assignRunnerOnOrderCreated, assignReadPhase, assignWritePhase, h, hr]

/-- The counter invariant of C6: `totalCompletedOrders` is non-negative and
`completedOrders ≤ totalCompletedOrders`. -/
def counterInv (r : Runner) : Prop :=
  0 ≤ r.totalCompletedOrders ∧ r.completedOrders ≤ r.totalCompletedOrders

theorem counterClosed_counterInv : CounterClosed counterInv :=
  { assign := fun _ _ hr => hr
    deliver := fun r hr => by
      simp only [counterInv] at hr ⊢
      omega
    bulk := fun _ _ _ hr => hr
    flip := fun _ _ hr => hr
    fresh := fun _ => ⟨le_refl 0, le_refl 0⟩
    daily := fun _ hr => ⟨hr.1, hr.1⟩ }

/-- C1 evidence: with one active runner (counters all 0) and an order created
with no runner at "18:00", the creation-time path assigns the runner and
clears `waitingForRunner`, but the runner's `activeOrders` ends at 2 — the
creation handler increments once and its order write fires
`onRunnerAssignedToOrder`, which increments again — while the claim requires a
total increment of exactly 1. -/
theorem c1_assignment_double_increments :
    lookupOrder (runOps tie0 [.newRunner 0 true, .createOrder 1 "18:00" .received none]
        initStore) 1 = some ⟨.received, "18:00", some 0, none⟩ ∧
      lookupRunner (runOps tie0 [.newRunner 0 true, .createOrder 1 "18:00" .received none]
        initStore) 0 = some ⟨true, 2, 0, 0, [1]⟩ ∧ (2 : Int) ≠ 1 := by decide

/-- C4 (amended): the delivered-transition handler updates the runner document
to exactly `activeOrders − 1` (with no floor at 0), `completedOrders + 1`,
`totalCompletedOrders + 1`. -/
theorem c4_delivered_transition_effect (s : Store) (oid : Nat) (before after : Order)
    (rid : Nat) (r : Runner) (h1 : before.orderStatus ≠ Status.delivered)
    (h2 : after.orderStatus = Status.delivered) (h3 : after.runner = some rid)
    (h4 : lookupRunner s rid = some r) :
    lookupRunner (updateRunnerOnOrderDeliveredStep s (oid, before, after)) rid =
      some { r with
             activeOrders := r.activeOrders - 1
             completedOrders := r.completedOrders + 1
             totalCompletedOrders := r.totalCompletedOrders + 1 } := by
  have hstep : updateRunnerOnOrderDeliveredStep s (oid, before, after) =
      updateRunnerDoc s rid (fun r => { r with
        activeOrders := r.activeOrders - 1
        completedOrders := r.completedOrders + 1
        totalCompletedOrders := r.totalCompletedOrders + 1 }) := by
    simp only [updateRunnerOnOrderDeliveredStep]
    rw [if_pos (show before.orderStatus ≠ Status.delivered ∧
        after.orderStatus = Status.delivered from ⟨h1, h2⟩)]
    simp only [h3, h4]
  rw [hstep, lookupRunner_updateRunnerDoc, if_pos rfl, h4, Option.map_some']

/-- The delivered-transition event of spec Scenario D, against a runner whose
`activeOrders` is already 0. -/
def c4Store : Store := ⟨[], [(5, ⟨true, 0, 2, 3, []⟩)]⟩

/-- C4 counterexample: a delivered transition against a runner with
`activeOrders = 0` drives the counter to −1: there is no floor at 0. -/
theorem c4_no_floor_counterexample :
    (lookupRunner (updateRunnerOnOrderDeliveredStep c4Store
        (9, ⟨.ready, "18:00", some 5, none⟩, ⟨.delivered, "18:00", some 5, none⟩)) 5).map
      Runner.activeOrders = some (-1) ∧ ¬ (0 ≤ (-1 : Int)) := by decide

/-- Witness for the amended C4 theorem at the Scenario-D input. -/
theorem c4_delivered_transition_effect_witness :
    lookupRunner (updateRunnerOnOrderDeliveredStep c4Store
        (9, ⟨.ready, "18:00", some 5, none⟩, ⟨.delivered, "18:00", some 5, none⟩)) 5 =
      some ⟨true, -1, 3, 4, []⟩ := by
  have h := c4_delivered_transition_effect c4Store 9 ⟨.ready, "18:00", some 5, none⟩
    ⟨.delivered, "18:00", some 5, none⟩ 5 ⟨true, 0, 2, 3, []⟩
    (by decide) rfl rfl (by decide)
  simpa using h

/-- The delivered-transition event of C5 and the store right after the
external `delivered` write: order 1 of runner 0, runner counters (1, 0, 0). -/
def c5Store : Store :=
  ⟨[(1, ⟨.delivered, "18:00", some 0, none⟩)], [(0, ⟨true, 1, 0, 0, [1]⟩)]⟩

/-- C5 evidence: processing the same delivered-transition event once yields
counters (0, 1, 1); processing it a second time (at-least-once redelivery)
yields (−1, 2, 2) — the handlers double-count on replay, because the
before/after guard passes again and the increments are unconditional.  An
event whose before and after snapshots are identical is, by contrast, a no-op. -/
theorem c5_replay_double_counts :
    lookupRunner (processEvents 8 c5Store
        [(1, ⟨.ready, "18:00", some 0, none⟩, ⟨.delivered, "18:00", some 0, none⟩)]) 0 =
      some ⟨true, 0, 1, 1, [1]⟩ ∧
    lookupRunner (processEvents 8 (processEvents 8 c5Store
        [(1, ⟨.ready, "18:00", some 0, none⟩, ⟨.delivered, "18:00", some 0, none⟩)])
        [(1, ⟨.ready, "18:00", some 0, none⟩, ⟨.delivered, "18:00", some 0, none⟩)]) 0 =
      some ⟨true, -1, 2, 2, [1]⟩ ∧
    processEvents 8 c5Store
        [(1, ⟨.delivered, "18:00", some 0, none⟩, ⟨.delivered, "18:00", some 0, none⟩)] =
      c5Store := by decide

/-- The reachable trace of the C6 counterexample: register a runner, create an
order (it gets assigned), deliver it, then run the monthly reset. -/
def c6Trace : List Op :=
  [.newRunner 0 true, .createOrder 1 "18:00" .received none,
   .setStatus 1 .delivered, .resetMonthly]

/-- C6 counterexample: after one completed delivery, the monthly reset zeroes
only `totalCompletedOrders`, leaving `completedOrders = 1 > 0 =
totalCompletedOrders` — the invariant does not survive the monthly reset. -/
theorem c6_monthly_reset_counterexample :
    lookupRunner (runOps tie0 c6Trace initStore) 0 = some ⟨true, 1, 1, 0, [1]⟩ ∧
      ¬ counterInv ⟨true, 1, 1, 0, [1]⟩ := by
  constructor
  · decide
  · simp [counterInv]

/-- C6 (amended): along every operation sequence from the initial store that
contains no monthly reset, every runner document satisfies
`0 ≤ totalCompletedOrders` and `completedOrders ≤ totalCompletedOrders`. -/
theorem c6_invariant_without_monthly_reset (tie : Nat → Nat → Bool) (ops : List Op)
    (hm : Op.resetMonthly ∉ ops) : RunnersInv counterInv (runOps tie ops initStore) :=
  runnersInv_runOps counterClosed_counterInv tie ops hm
    (fun q hq => absurd hq (List.not_mem_nil q))

/-- Witness for the amended C6 theorem along a trace with an assignment, a
delivery and a daily reset. -/
theorem c6_invariant_without_monthly_reset_witness :
    Op.resetMonthly ∉ [Op.newRunner 0 true, Op.createOrder 1 "18:00" Status.received none,
        Op.setStatus 1 Status.delivered, Op.resetDaily] ∧
      RunnersInv counterInv (runOps tie0 [Op.newRunner 0 true,
        Op.createOrder 1 "18:00" Status.received none,
        Op.setStatus 1 Status.delivered, Op.resetDaily] initStore) :=
  ⟨by decide, c6_invariant_without_monthly_reset tie0 _ (by decide)⟩

/-- C8 evidence: an unparseable delivery time is not rejected — `NaN`
arithmetic makes every comparison false, so the malformed commitment is
silently classified conflict-free and the runner is selected; a malformed
candidate time likewise conflicts with nothing. -/
theorem c8_malformed_time_silently_conflict_free :
    parseClock "6pm" = none ∧
    runnerHasConflictingDelivery c8Store 0 "18:30" = false ∧
    findSuitableRunner tie0 c8Store "18:30" = some (0, ⟨true, 1, 0, 0, [5]⟩) ∧
    runnerHasConflictingDelivery demoStore 7 "soon" = false := by decide

/-- Witness for C3, at the P4 pool with a fixed tie-break draw: the selector
picks R3, which is active, conflict-free and fairness-minimal. -/
theorem c3_selector_spec_witness :
    findSuitableRunner tie0 p4Store "18:00" = some (3, ⟨true, 1, 3, 0, []⟩) ∧
      ((3, (⟨true, 1, 3, 0, []⟩ : Runner)) ∈ p4Store.runners ∧
        (⟨true, 1, 3, 0, []⟩ : Runner).isActive = true ∧
        runnerHasConflictingDelivery p4Store 3 "18:00" = false ∧
        ∀ p ∈ p4Store.runners, p.2.isActive = true →
          runnerHasConflictingDelivery p4Store p.1 "18:00" = false →
            ¬ lexLtR p.2 ⟨true, 1, 3, 0, []⟩) :=
  ⟨c3_selector_spec.2 tie0,
    (c3_selector_spec.1 tie0 p4Store "18:00").2 3 _ (c3_selector_spec.2 tie0)⟩

end Briskit
